import Mathlib

/-!
Verification of the price-visibility-booster core against its specification.

The development shallowly embeds the JavaScript source:
pure functions become Lean functions over exact rationals (`ℚ` stands in for
JS numbers; IEEE rounding is outside the model), JS objects become
association lists `List (String × _)` with JS property-assignment semantics,
fallible code returns `Except`/`Option`, and the paginated fetch loops are
run against an explicit list of endpoint responses consumed one per round
trip.  Thrown JS errors become `fatal`/`Except.error` outcomes carrying the
thrown message; `Logger.log` output is accumulated in an explicit log trace.
-/

set_option maxRecDepth 8000

namespace PVB

/-- Configuration globals read by the core (loaded from the spreadsheet in
`constants.js`); modelled as an immutable record.  Field names follow the
source globals.  `CUSTOM_LABEL_NUMBER` is kept as the string it contributes
to header text. -/
structure VBConfig where
  BELOW_BENCHMARK_RULE : ℚ
  AT_BENCHMARK_RULE : ℚ
  ABOVE_BENCHMARK_RULE : ℚ
  BELOW_BENCHMARK_NAME : String
  AT_BENCHMARK_NAME : String
  ABOVE_BENCHMARK_NAME : String
  EXPORT_LABELS : List String
  STOCK_ENABLED : Bool
  STOCK_THRESHOLD : ℚ
  STOCK_ATTRIBUTE : String
  CUSTOM_LABEL_NUMBER : String
  ACTIVATE_LABELS : Bool

/-- Embedding of `calculateLabel` (part_000 lines 304-316).  The branch
structure and comparison directions are kept exactly: strict `<` against the
below rule, `>= AT_BENCHMARK_RULE * (-1) && < AT_BENCHMARK_RULE` for the at
band, strict `>` against the above rule, otherwise the empty string. -/
def calculateLabel (cfg : VBConfig) (relativePrice : ℚ) : String :=
  if relativePrice < cfg.BELOW_BENCHMARK_RULE then
    cfg.BELOW_BENCHMARK_NAME
  else if cfg.AT_BENCHMARK_RULE * (-1) ≤ relativePrice ∧
      relativePrice < cfg.AT_BENCHMARK_RULE then
    cfg.AT_BENCHMARK_NAME
  else if relativePrice > cfg.ABOVE_BENCHMARK_RULE then
    cfg.ABOVE_BENCHMARK_NAME
  else
    ""

/-- Embedding of `checkStock` (part_000 lines 492-507).  The stock value of a
product is `some q` when the raw custom-attribute value coerces to the number
`q`, and `none` when it is non-numeric or the empty string; the first source
statement replaces the latter with 0.  The four-branch structure of the
source is kept. -/
def checkStock (cfg : VBConfig) (stockInfo : Option ℚ) : Bool :=
  let v : ℚ := match stockInfo with
    | none => 0
    | some q => q
  if cfg.STOCK_ENABLED = false then true
  else if cfg.STOCK_ENABLED = true ∧ v ≥ cfg.STOCK_THRESHOLD then true
  else if cfg.STOCK_ENABLED = true ∧ v < cfg.STOCK_THRESHOLD then false
  else true

/-- C2: `calculateLabel` evaluates its rules in order — Below iff
`relativePrice` is strictly under the below threshold; otherwise At iff
`-atThreshold ≤ relativePrice < atThreshold`; otherwise Above iff strictly
over the above threshold; otherwise the empty label.  With
`atThreshold = aboveThreshold = 0.05`, inputs 0 and 0.0499 give the At name,
0.05 gives the empty label, 0.0501 gives the Above name; and whenever
`atThreshold < aboveThreshold` every input in the closed gap
`[atThreshold, aboveThreshold]` gives the empty label. -/
theorem calculateLabel_order_spec :
    (∀ (cfg : VBConfig) (rp : ℚ),
      cfg.BELOW_BENCHMARK_RULE ≤ 0 →
      0 ≤ cfg.AT_BENCHMARK_RULE →
      0 ≤ cfg.ABOVE_BENCHMARK_RULE →
      cfg.BELOW_BENCHMARK_NAME ≠ "" →
      cfg.AT_BENCHMARK_NAME ≠ "" →
      cfg.ABOVE_BENCHMARK_NAME ≠ "" →
      cfg.BELOW_BENCHMARK_NAME ≠ cfg.AT_BENCHMARK_NAME →
      cfg.BELOW_BENCHMARK_NAME ≠ cfg.ABOVE_BENCHMARK_NAME →
      cfg.AT_BENCHMARK_NAME ≠ cfg.ABOVE_BENCHMARK_NAME →
      ((calculateLabel cfg rp = cfg.BELOW_BENCHMARK_NAME ↔
          rp < cfg.BELOW_BENCHMARK_RULE) ∧
       (calculateLabel cfg rp = cfg.AT_BENCHMARK_NAME ↔
          (¬ rp < cfg.BELOW_BENCHMARK_RULE ∧
           -cfg.AT_BENCHMARK_RULE ≤ rp ∧ rp < cfg.AT_BENCHMARK_RULE)) ∧
       (calculateLabel cfg rp = cfg.ABOVE_BENCHMARK_NAME ↔
          (¬ rp < cfg.BELOW_BENCHMARK_RULE ∧
           ¬ (-cfg.AT_BENCHMARK_RULE ≤ rp ∧ rp < cfg.AT_BENCHMARK_RULE) ∧
           rp > cfg.ABOVE_BENCHMARK_RULE)) ∧
       (calculateLabel cfg rp = "" ↔
          (¬ rp < cfg.BELOW_BENCHMARK_RULE ∧
           ¬ (-cfg.AT_BENCHMARK_RULE ≤ rp ∧ rp < cfg.AT_BENCHMARK_RULE) ∧
           ¬ rp > cfg.ABOVE_BENCHMARK_RULE)))) ∧
    (∀ cfg : VBConfig,
      cfg.AT_BENCHMARK_RULE = 0.05 →
      cfg.ABOVE_BENCHMARK_RULE = 0.05 →
      cfg.BELOW_BENCHMARK_RULE ≤ 0 →
      (calculateLabel cfg 0 = cfg.AT_BENCHMARK_NAME ∧
       calculateLabel cfg 0.0499 = cfg.AT_BENCHMARK_NAME ∧
       calculateLabel cfg 0.05 = "" ∧
       calculateLabel cfg 0.0501 = cfg.ABOVE_BENCHMARK_NAME)) ∧
    (∀ (cfg : VBConfig) (rp : ℚ),
      cfg.BELOW_BENCHMARK_RULE ≤ 0 →
      0 ≤ cfg.AT_BENCHMARK_RULE →
      cfg.AT_BENCHMARK_RULE < cfg.ABOVE_BENCHMARK_RULE →
      cfg.AT_BENCHMARK_RULE ≤ rp →
      rp ≤ cfg.ABOVE_BENCHMARK_RULE →
      calculateLabel cfg rp = "") := by
  refine ⟨?_, ?_, ?_⟩
  · intro cfg rp hb hat hab hn1 hn2 hn3 hd1 hd2 hd3
    simp only [calculateLabel, mul_neg_one]
    split_ifs with h1 h2 h3
    · simp [h1, hd1, hd2, hn1]
    · simp [h1, h2, hd1.symm, hd3, hn2]
    · simp [h1, h2, h3, hd2.symm, hd3.symm, hn3]
    · simp [h1, h2, h3, hn1.symm, hn2.symm, hn3.symm]
  · intro cfg hat hab hb
    have hb0 : ∀ rp : ℚ, 0 ≤ rp → ¬ (rp < cfg.BELOW_BENCHMARK_RULE) := by
      intro rp h hc; linarith
    refine ⟨?_, ?_, ?_, ?_⟩
    · rw [calculateLabel.eq_def, if_neg (hb0 0 le_rfl),
        if_pos (show _ ∧ _ by rw [hat]; norm_num)]
    · rw [calculateLabel.eq_def, if_neg (hb0 _ (by norm_num)),
        if_pos (show _ ∧ _ by rw [hat]; norm_num)]
    · rw [calculateLabel.eq_def, if_neg (hb0 _ (by norm_num)),
        if_neg (show ¬ (_ ∧ _) by rw [hat]; norm_num),
        if_neg (show ¬ _ > _ by rw [hab]; norm_num)]
    · rw [calculateLabel.eq_def, if_neg (hb0 _ (by norm_num)),
        if_neg (show ¬ (_ ∧ _) by rw [hat]; norm_num),
        if_pos (show _ > _ by rw [hab]; norm_num)]
  · intro cfg rp hb hat hlt h1 h2
    rw [calculateLabel.eq_def, if_neg (by intro hc; linarith),
      if_neg (by rintro ⟨hc1, hc2⟩; linarith), if_neg (by intro hc; linarith)]

/-- Concrete configuration used by the end-to-end example of the spec:
thresholds below = -0.1, at = 0.05, above = 0.05, label names Below/At/Above,
export allow-list containing only "Above", stock tracking disabled. -/
def cfg0 : VBConfig where
  BELOW_BENCHMARK_RULE := -0.1
  AT_BENCHMARK_RULE := 0.05
  ABOVE_BENCHMARK_RULE := 0.05
  BELOW_BENCHMARK_NAME := "Below"
  AT_BENCHMARK_NAME := "At"
  ABOVE_BENCHMARK_NAME := "Above"
  EXPORT_LABELS := ["Above"]
  STOCK_ENABLED := false
  STOCK_THRESHOLD := 0
  STOCK_ATTRIBUTE := "stock"
  CUSTOM_LABEL_NUMBER := "0"
  ACTIVATE_LABELS := true

theorem calculateLabel_order_spec_witness :
    calculateLabel cfg0 0.1 = "Above" ∧ calculateLabel cfg0 0 = "At" := by
  have h1 := (calculateLabel_order_spec.1 cfg0 0.1 (by norm_num [cfg0])
    (by norm_num [cfg0]) (by norm_num [cfg0]) (by simp [cfg0]) (by simp [cfg0])
    (by simp [cfg0]) (by simp [cfg0]) (by simp [cfg0]) (by simp [cfg0])).2.2.1
  have h2 := calculateLabel_order_spec.2.1 cfg0 rfl rfl (by norm_num [cfg0])
  exact ⟨h1.mpr ⟨by norm_num [cfg0], by norm_num [cfg0], by norm_num [cfg0]⟩, h2.1⟩

/-- An error object reported by the Content API: a numeric code and a
message. -/
structure ApiError where
  code : Int
  message : String
deriving DecidableEq, Repr

/-- One response of the report endpoint (`api.getReport`): a results page,
an optional next page token, or an error object.  The fetch loops below are
run against an explicit list of such responses, consumed one per round
trip. -/
structure ReportResponse (α : Type) where
  results : Option (List α)
  nextPageToken : Option String
  error : Option ApiError
deriving Repr

/-- Observable outcome of `downloadReport`: either a normal return with the
accumulated results and the final retry counter, or a thrown error with its
message (the JS `throw new Error(...)`), or `noResponse` when the modelled
response list is exhausted while the loop still wants another page.  `logs`
is the accumulated `Logger.log` trace and `reqs` the sequence of page tokens
sent, one per round trip. -/
inductive FetchOutcome (α : Type) where
  | ok (results : List α) (nTries : ℕ) (logs : List String) (reqs : List String)
  | fatal (msg : String) (nTries : ℕ) (logs : List String) (reqs : List String)
  | noResponse
deriving Repr

/-- The message of the raised error, when the outcome is a thrown error. -/
def FetchOutcome.raisedError {α : Type} : FetchOutcome α → Option String
  | .fatal msg _ _ _ => some msg
  | _ => none

/-- The `Logger.log` trace of an outcome. -/
def FetchOutcome.logTrace {α : Type} : FetchOutcome α → List String
  | .ok _ _ logs _ => logs
  | .fatal _ _ logs _ => logs
  | .noResponse => []

def finalLog (n : ℕ) : String := "Final results: " ++ toString n ++ " rows."

def errLog (e : ApiError) : String :=
  "Error(" ++ toString e.code ++ "): " ++ e.message

def retryLog (n : ℕ) : String := "Internal error. Trying again #" ++ toString n

/-- Loop body of `downloadReport` (part_000 lines 209-245).  State: remaining
endpoint responses, current `pageToken` (`none` is the JS `null` that ends
the loop, the initial token is the empty string), accumulated `fullResults`,
retry counter `nTries`, log trace, and the trace of tokens sent. -/
def downloadReportGo {α : Type} (maxTries : ℕ) :
    List (ReportResponse α) → Option String → List α → ℕ → List String →
      List String → FetchOutcome α
  | _, none, fullResults, nTries, logs, reqs =>
      .ok fullResults nTries (logs ++ [finalLog fullResults.length]) reqs
  | [], some _, _, _, _, _ => .noResponse
  | r :: rest, some tok, fullResults, nTries, logs, reqs =>
      match r.results with
      | some rs =>
          downloadReportGo maxTries rest r.nextPageToken (fullResults ++ rs)
            nTries logs (reqs ++ [tok])
      | none =>
          match r.error with
          | some e =>
              if e.code = 500 then
                if nTries < maxTries then
                  downloadReportGo maxTries rest (some tok) fullResults
                    (nTries + 1) (logs ++ [errLog e, retryLog (nTries + 1)])
                    (reqs ++ [tok])
                else
                  .fatal "Internal error getting report. Please try it again later"
                    nTries (logs ++ [errLog e]) (reqs ++ [tok])
              else
                .ok fullResults nTries
                  (logs ++ [errLog e, finalLog fullResults.length])
                  (reqs ++ [tok])
          | none =>
              .ok fullResults nTries (logs ++ [finalLog fullResults.length])
                (reqs ++ [tok])

/-- `downloadReport` with the source's hard-coded `maxTries = 3`, initial
empty page token, empty accumulator. -/
def downloadReport {α : Type} (resps : List (ReportResponse α)) :
    FetchOutcome α :=
  downloadReportGo 3 resps (some "") [] 0 [] []

/-- One response of the product-listing endpoint (`api.list_products`):
`resources` instead of `results`, no retry support at the call site. -/
structure ListResponse (α : Type) where
  resources : Option (List α)
  nextPageToken : Option String
  error : Option ApiError
deriving Repr

/-- Outcome of `getProductList`; it has no retry counter. -/
inductive ListOutcome (α : Type) where
  | ok (results : List α) (logs : List String) (reqs : List String)
  | fatal (msg : String) (logs : List String) (reqs : List String)
  | noResponse
deriving Repr

def gotSoFarLog (n : ℕ) : String := "Got " ++ toString n ++ " so far..."

/-- Loop body of `getProductList` (part_000 lines 169-194): same pagination,
but an internal (code 500) error is not retried — the count gathered so far
is logged and a fatal error is thrown immediately; any other error breaks
the loop silently. -/
def getProductListGo {α : Type} :
    List (ListResponse α) → Option String → List α → List String →
      List String → ListOutcome α
  | _, none, fullResults, logs, reqs =>
      .ok fullResults (logs ++ [finalLog fullResults.length]) reqs
  | [], some _, _, _, _ => .noResponse
  | r :: rest, some tok, fullResults, logs, reqs =>
      match r.resources with
      | some rs =>
          getProductListGo rest r.nextPageToken (fullResults ++ rs) logs
            (reqs ++ [tok])
      | none =>
          match r.error with
          | some e =>
              if e.code = 500 then
                .fatal "Internal error when getting report. Please try it again"
                  (logs ++ [errLog e, gotSoFarLog fullResults.length])
                  (reqs ++ [tok])
              else
                .ok fullResults
                  (logs ++ [errLog e, finalLog fullResults.length])
                  (reqs ++ [tok])
          | none =>
              .ok fullResults (logs ++ [finalLog fullResults.length])
                (reqs ++ [tok])

/-- `getProductList` with initial empty page token and accumulator. -/
def getProductList {α : Type} (resps : List (ListResponse α)) : ListOutcome α :=
  getProductListGo resps (some "") [] [] []

/-- A retryable (code 500) error response of the report endpoint. -/
def respErr500 : ReportResponse ℕ := ⟨none, none, some ⟨500, "Internal error"⟩⟩

/-- A successful results page of the report endpoint. -/
def respPage (rs : List ℕ) (npt : Option String) : ReportResponse ℕ :=
  ⟨some rs, npt, none⟩

/-- C3 (amended): `downloadReport` retries a code-500 error immediately on
the same page token without advancing the cursor; at most 3 retries are
allowed overall; 3 retryable errors followed by successful pages yield the
combined results with exactly 3 retries recorded (all retried requests
re-sent the same token); a 4th retryable error raises the fatal error
(which has a fixed message and does not carry the accumulated count — see
the accompanying counterexample). -/
theorem downloadReport_retry_spec :
    (∀ (α : Type) (maxTries : ℕ) (rest : List (ReportResponse α))
       (npt : Option String) (msg tok : String) (acc : List α) (n : ℕ)
       (logs reqs : List String),
      n < maxTries →
      downloadReportGo maxTries (⟨none, npt, some ⟨500, msg⟩⟩ :: rest)
          (some tok) acc n logs reqs =
        downloadReportGo maxTries rest (some tok) acc (n + 1)
          (logs ++ [errLog ⟨500, msg⟩, retryLog (n + 1)]) (reqs ++ [tok])) ∧
    (∀ (α : Type) (resps : List (ReportResponse α)) (tok : Option String)
       (acc : List α) (n : ℕ) (logs reqs : List String) (res : List α) (m : ℕ)
       (lg rq : List String),
      n ≤ 3 → downloadReportGo 3 resps tok acc n logs reqs = .ok res m lg rq →
      m ≤ 3) ∧
    (downloadReport [respErr500, respErr500, respErr500,
        respPage [1] (some "t1"), respPage [2] none] =
      .ok [1, 2] 3
        [errLog ⟨500, "Internal error"⟩, retryLog 1,
         errLog ⟨500, "Internal error"⟩, retryLog 2,
         errLog ⟨500, "Internal error"⟩, retryLog 3, finalLog 2]
        ["", "", "", "", "t1"]) ∧
    (downloadReport [respErr500, respErr500, respErr500, respErr500] =
      .fatal "Internal error getting report. Please try it again later" 3
        [errLog ⟨500, "Internal error"⟩, retryLog 1,
         errLog ⟨500, "Internal error"⟩, retryLog 2,
         errLog ⟨500, "Internal error"⟩, retryLog 3,
         errLog ⟨500, "Internal error"⟩]
        ["", "", "", ""]) := by
  refine ⟨?_, ?_, ?_, ?_⟩
  · intro α maxTries rest npt msg tok acc n logs reqs h
    simp [downloadReportGo, h]
  · intro α resps tok acc n logs reqs res m lg rq hn h
    induction resps generalizing tok acc n logs reqs with
    | nil =>
      cases tok with
      | none =>
        simp only [downloadReportGo, FetchOutcome.ok.injEq] at h
        obtain ⟨-, h2, -, -⟩ := h
        omega
      | some t => simp [downloadReportGo] at h
    | cons r rest ih =>
      cases tok with
      | none =>
        simp only [downloadReportGo, FetchOutcome.ok.injEq] at h
        obtain ⟨-, h2, -, -⟩ := h
        omega
      | some t =>
        rcases hr : r.results with - | rs
        · rcases he : r.error with - | e
          · simp only [downloadReportGo, hr, he, FetchOutcome.ok.injEq] at h
            obtain ⟨-, h2, -, -⟩ := h
            omega
          · by_cases hc : e.code = 500
            · by_cases hlt : n < 3
              · simp only [downloadReportGo, hr, he, hc, if_true, hlt] at h
                exact ih _ _ _ _ _ (by omega) h
              · simp [downloadReportGo, hr, he, hc, hlt] at h
            · simp only [downloadReportGo, hr, he, hc, if_false,
                FetchOutcome.ok.injEq] at h
              obtain ⟨-, h2, -, -⟩ := h
              omega
        · simp only [downloadReportGo, hr] at h
          exact ih _ _ _ _ _ hn h
  · rfl
  · rfl

theorem downloadReport_retry_spec_witness :
    ((0 : ℕ) < 3 ∧
      downloadReportGo 3 [(⟨none, none, some ⟨500, "boom"⟩⟩ : ReportResponse ℕ)]
          (some "") [] 0 [] [] =
        downloadReportGo 3 [] (some "") [] (0 + 1)
          ([] ++ [errLog ⟨500, "boom"⟩, retryLog (0 + 1)]) ([] ++ [""])) ∧
    (0 : ℕ) ≤ 3 :=
  ⟨⟨by decide,
     downloadReport_retry_spec.1 ℕ 3 [] none "boom" "" [] 0 [] [] (by decide)⟩,
   downloadReport_retry_spec.2.1 ℕ [] none [] 0 [] [] [] 0
     ([] ++ [finalLog 0]) [] (by decide) rfl⟩

/-- C3 counterexample to the count-carrying part of the claim: two runs that
both exhaust the retries, one having accumulated no results and the other
one page of results, raise the identical fatal error — same message, same
retry counter, and even the same log trace.  The raised error therefore does
not carry the count of results accumulated so far. -/
theorem downloadReport_fatal_ignores_count :
    (downloadReport [respPage [7] (some "t"), respErr500, respErr500,
        respErr500, respErr500] =
      downloadReportGo 3 [respErr500, respErr500, respErr500, respErr500]
        (some "t") [7] 0 [] [""]) ∧
    (downloadReport [respErr500, respErr500, respErr500,
        respErr500]).raisedError =
      some "Internal error getting report. Please try it again later" ∧
    (downloadReport [respPage [7] (some "t"), respErr500, respErr500,
        respErr500, respErr500]).raisedError =
      some "Internal error getting report. Please try it again later" ∧
    (downloadReport [respErr500, respErr500, respErr500,
        respErr500]).logTrace =
      (downloadReport [respPage [7] (some "t"), respErr500, respErr500,
        respErr500, respErr500]).logTrace := by
  exact ⟨rfl, rfl, rfl, rfl⟩

/-- C9: the retry counter of `downloadReport` is never reset after a
successfully fetched page — a successful page leaves `nTries` unchanged
(first conjunct), so the bound of 3 applies to the total number of code-500
errors of the whole run: a 4th retryable error raises the fatal error even
with successful pages between the errors (second conjunct). -/
theorem downloadReport_retry_budget_global :
    (∀ (α : Type) (maxTries : ℕ) (rest : List (ReportResponse α))
       (rs : List α) (npt : Option String) (err : Option ApiError)
       (tok : String) (acc : List α) (n : ℕ) (logs reqs : List String),
      downloadReportGo maxTries (⟨some rs, npt, err⟩ :: rest) (some tok) acc n
          logs reqs =
        downloadReportGo maxTries rest npt (acc ++ rs) n logs
          (reqs ++ [tok])) ∧
    (downloadReport [respErr500, respPage [1] (some "t1"), respErr500,
        respPage [2] (some "t2"), respErr500, respPage [3] (some "t3"),
        respErr500] =
      .fatal "Internal error getting report. Please try it again later" 3
        [errLog ⟨500, "Internal error"⟩, retryLog 1,
         errLog ⟨500, "Internal error"⟩, retryLog 2,
         errLog ⟨500, "Internal error"⟩, retryLog 3,
         errLog ⟨500, "Internal error"⟩]
        ["", "", "t1", "t1", "t2", "t2", "t3"]) := by
  exact ⟨fun α maxTries rest rs npt err tok acc n logs reqs => rfl, rfl⟩

/-- C6: a reported error whose code is not 500 aborts either fetch loop
immediately; `downloadReport` then silently returns the accumulated results
with no error propagated (first conjunct) and raises a fatal error only when
the retries are exhausted, with its fixed message (second conjunct);
`getProductList` breaks silently on a non-retryable error (third conjunct)
and throws immediately — zero retries — on a code-500 error (fourth
conjunct). -/
theorem fetch_error_propagation :
    (∀ (α : Type) (maxTries : ℕ) (rest : List (ReportResponse α))
       (npt : Option String) (code : Int) (msg tok : String) (acc : List α)
       (n : ℕ) (logs reqs : List String),
      code ≠ 500 →
      downloadReportGo maxTries (⟨none, npt, some ⟨code, msg⟩⟩ :: rest)
          (some tok) acc n logs reqs =
        .ok acc n (logs ++ [errLog ⟨code, msg⟩, finalLog acc.length])
          (reqs ++ [tok])) ∧
    (∀ (α : Type) (maxTries : ℕ) (resps : List (ReportResponse α))
       (tok : Option String) (acc : List α) (n : ℕ) (logs reqs : List String)
       (msg : String) (m : ℕ) (lg rq : List String),
      n ≤ maxTries →
      downloadReportGo maxTries resps tok acc n logs reqs = .fatal msg m lg rq →
      m = maxTries ∧
        msg = "Internal error getting report. Please try it again later") ∧
    (∀ (α : Type) (rest : List (ListResponse α)) (npt : Option String)
       (code : Int) (msg tok : String) (acc : List α) (logs reqs : List String),
      code ≠ 500 →
      getProductListGo (⟨none, npt, some ⟨code, msg⟩⟩ :: rest) (some tok) acc
          logs reqs =
        .ok acc (logs ++ [errLog ⟨code, msg⟩, finalLog acc.length])
          (reqs ++ [tok])) ∧
    (∀ (α : Type) (rest : List (ListResponse α)) (npt : Option String)
       (msg tok : String) (acc : List α) (logs reqs : List String),
      getProductListGo (⟨none, npt, some ⟨500, msg⟩⟩ :: rest) (some tok) acc
          logs reqs =
        .fatal "Internal error when getting report. Please try it again"
          (logs ++ [errLog ⟨500, msg⟩, gotSoFarLog acc.length])
          (reqs ++ [tok])) := by
  refine ⟨?_, ?_, ?_, ?_⟩
  · intro α maxTries rest npt code msg tok acc n logs reqs h
    simp [downloadReportGo, h]
  · intro α maxTries resps tok acc n logs reqs msg m lg rq hn h
    induction resps generalizing tok acc n logs reqs with
    | nil =>
      cases tok with
      | none => simp [downloadReportGo] at h
      | some t => simp [downloadReportGo] at h
    | cons r rest ih =>
      cases tok with
      | none => simp [downloadReportGo] at h
      | some t =>
        rcases hr : r.results with - | rs
        · rcases he : r.error with - | e
          · simp [downloadReportGo, hr, he] at h
          · by_cases hc : e.code = 500
            · by_cases hlt : n < maxTries
              · simp only [downloadReportGo, hr, he, hc, if_true, hlt] at h
                exact ih _ _ _ _ _ (by omega) h
              · simp only [downloadReportGo, hr, he, hc, if_true, hlt,
                  if_false, FetchOutcome.fatal.injEq] at h
                obtain ⟨h1, h2, -, -⟩ := h
                exact ⟨by omega, h1.symm⟩
            · simp [downloadReportGo, hr, he, hc] at h
        · simp only [downloadReportGo, hr] at h
          exact ih _ _ _ _ _ hn h
  · intro α rest npt code msg tok acc logs reqs h
    simp [getProductListGo, h]
  · intro α rest npt msg tok acc logs reqs
    simp [getProductListGo]

theorem fetch_error_propagation_witness :
    ((404 : Int) ≠ 500 ∧
     downloadReportGo 3 [(⟨none, none, some ⟨404, "nf"⟩⟩ : ReportResponse ℕ)]
         (some "") [] 0 [] [] =
       .ok [] 0 [errLog ⟨404, "nf"⟩, finalLog 0] [""]) ∧
    ((3 : ℕ) = 3 ∧
      "Internal error getting report. Please try it again later" =
        "Internal error getting report. Please try it again later") ∧
    (getProductListGo [(⟨none, none, some ⟨404, "nf"⟩⟩ : ListResponse ℕ)]
        (some "") [] [] [] =
      .ok [] [errLog ⟨404, "nf"⟩, finalLog 0] [""]) :=
  ⟨⟨by decide,
     fetch_error_propagation.1 ℕ 3 [] none 404 "nf" "" [] 0 [] [] (by decide)⟩,
   fetch_error_propagation.2.1 ℕ 3
     [respErr500, respErr500, respErr500, respErr500] (some "") [] 0 [] []
     "Internal error getting report. Please try it again later" 3
     ((downloadReport [respErr500, respErr500, respErr500,
        respErr500]).logTrace)
     ["", "", "", ""] (by decide) rfl,
   fetch_error_propagation.2.2.1 ℕ [] none 404 "nf" "" [] [] [] (by decide)⟩

/-- JS property lookup on an object modelled as an association list:
`m[k]`, `none` for `undefined`. -/
def jsGet {β : Type} : List (String × β) → String → Option β
  | [], _ => none
  | (k, v) :: rest, key => if k = key then some v else jsGet rest key

/-- JS property assignment `m[k] = v`: an existing key keeps its position
and gets the new value, a new key is appended. -/
def jsAssign {β : Type} (m : List (String × β)) (k : String) (v : β) :
    List (String × β) :=
  if m.any (fun p => p.1 = k) then
    m.map (fun p => if p.1 = k then (k, v) else p)
  else m ++ [(k, v)]

/-- Product record built by `getProducts` (part_000 lines 146-149) and keyed
by product id: the raw stock custom-attribute value and the availability
string.  The stock value is `some q` when the raw attribute coerces to the
number `q` and `none` when it is non-numeric or the empty string. -/
structure ProductRecord where
  stockQuantity : Option ℚ
  availability : String
deriving DecidableEq, Repr

/-- Stat record built by `getStats` and keyed by offer id. -/
structure StatRecord where
  impressions : ℚ
  clicks : ℚ
deriving DecidableEq, Repr

/-- The `productView` part of a benchmark report row; the fields reached by
`mergeData` through the flattened keys `productView.id`,
`productView.offerId`, `productView.title`, `productView.brand`,
`productView.priceMicros`, `productView.currencyCode`. -/
structure ProductViewPart where
  id : String
  offerId : String
  title : String
  brand : String
  priceMicros : ℚ
  currencyCode : String
deriving DecidableEq, Repr

/-- The `priceCompetitiveness` part of a benchmark report row; reached
through the flattened keys `priceCompetitiveness.countryCode` and
`priceCompetitiveness.benchmarkPriceMicros`. -/
structure PriceCompetitivenessPart where
  countryCode : String
  benchmarkPriceMicros : ℚ
deriving DecidableEq, Repr

/-- One benchmark record as returned by the price-competitiveness report
query (`getPriceBenchmark`). -/
structure BenchmarkRow where
  productView : ProductViewPart
  priceCompetitiveness : PriceCompetitivenessPart
deriving DecidableEq, Repr

/-- A spreadsheet cell value: string or number. -/
inductive Cell where
  | str : String → Cell
  | num : ℚ → Cell
deriving DecidableEq, Repr

/-- Header row of the detail output (part_000 lines 375-389): the stock
column is appended only when stock tracking is enabled. -/
def detailHeader (cfg : VBConfig) : List Cell :=
  if cfg.STOCK_ENABLED then
    [.str "id", .str "title", .str "brand", .str "current_price",
     .str "currency", .str "country", .str "benchmark_price",
     .str "% current vs. benchmark",
     .str ("custom_label_" ++ cfg.CUSTOM_LABEL_NUMBER), .str "impressions",
     .str "clicks", .str cfg.STOCK_ATTRIBUTE]
  else
    [.str "id", .str "title", .str "brand", .str "current_price",
     .str "currency", .str "country", .str "benchmark_price",
     .str "% current vs. benchmark",
     .str ("custom_label_" ++ cfg.CUSTOM_LABEL_NUMBER), .str "impressions",
     .str "clicks"]

/-- Header row of the supplemental feed (part_000 line 390). -/
def suppHeader (cfg : VBConfig) : List Cell :=
  [.str "id", .str ("custom_label_" ++ cfg.CUSTOM_LABEL_NUMBER)]

/-- Processing of one benchmark record inside the `forEach` of `mergeData`
(part_000 lines 392-442).  Returns the emitted (detail row, supplemental
row) pair, `none` when the record is skipped, and `Except.error` for the JS
`TypeError` raised by the lookup `statsData[offerId]` when `statsData` is
the JS `null` (`getStats` can return null, see `getStats`). -/
def mergeRow (cfg : VBConfig) (productData : List (String × ProductRecord))
    (statsData : Option (List (String × StatRecord))) (row : BenchmarkRow) :
    Except Unit (Option (List Cell × List Cell)) :=
  if row.priceCompetitiveness.benchmarkPriceMicros > 0 then
    match jsGet productData row.productView.id with
    | some prod =>
        let relativePrice := row.productView.priceMicros /
          row.priceCompetitiveness.benchmarkPriceMicros - 1
        let custom_label := calculateLabel cfg relativePrice
        if custom_label ∈ cfg.EXPORT_LABELS ∧
            prod.availability = "in stock" ∧
            checkStock cfg prod.stockQuantity = true then
          match statsData with
          | none => .error ()
          | some sd =>
              let stats := jsGet sd row.productView.offerId
              let impressions : ℚ :=
                match stats with
                | some st => st.impressions
                | none => 0
              let clicks : ℚ :=
                match stats with
                | some st => st.clicks
                | none => 0
              let stock_quantity : Cell :=
                match prod.stockQuantity with
                | some q => .num q
                | none => .str ""
              let detail : List Cell :=
                if cfg.STOCK_ENABLED then
                  [.str row.productView.offerId, .str row.productView.title,
                   .str row.productView.brand,
                   .num (row.productView.priceMicros / 1000000),
                   .str row.productView.currencyCode,
                   .str row.priceCompetitiveness.countryCode,
                   .num (row.priceCompetitiveness.benchmarkPriceMicros /
                     1000000),
                   .num relativePrice, .str custom_label, .num impressions,
                   .num clicks, stock_quantity]
                else
                  [.str row.productView.offerId, .str row.productView.title,
                   .str row.productView.brand,
                   .num (row.productView.priceMicros / 1000000),
                   .str row.productView.currencyCode,
                   .str row.priceCompetitiveness.countryCode,
                   .num (row.priceCompetitiveness.benchmarkPriceMicros /
                     1000000),
                   .num relativePrice, .str custom_label, .num impressions,
                   .num clicks]
              .ok (some (detail,
                [.str row.productView.offerId, .str custom_label]))
        else .ok none
    | none => .ok none
  else .ok none

/-- Sequential processing of the benchmark records, accumulating the two
output row lists; the first faulting record aborts the whole pass (the JS
exception propagates out of `mergeData`, nothing is written). -/
def mergeRows (cfg : VBConfig) (productData : List (String × ProductRecord))
    (statsData : Option (List (String × StatRecord))) :
    List BenchmarkRow → Except Unit (List (List Cell) × List (List Cell))
  | [] => .ok ([], [])
  | row :: rest =>
      match mergeRow cfg productData statsData row with
      | .error e => .error e
      | .ok contrib =>
          match mergeRows cfg productData statsData rest with
          | .error e => .error e
          | .ok (ds, ss) =>
              match contrib with
              | some (d, s) => .ok (d :: ds, s :: ss)
              | none => .ok (ds, ss)

/-- Embedding of `mergeData` (part_000 lines 372-453): header rows plus the
processed benchmark records, as the two arrays `output` and
`supplemental_feed` handed to `pushToSheets`. -/
def mergeData (cfg : VBConfig) (benchmarkData : List BenchmarkRow)
    (productData : List (String × ProductRecord))
    (statsData : Option (List (String × StatRecord))) :
    Except Unit (List (List Cell) × List (List Cell)) :=
  match mergeRows cfg productData statsData benchmarkData with
  | .error e => .error e
  | .ok (ds, ss) => .ok (detailHeader cfg :: ds, suppHeader cfg :: ss)

/-- One row of the performance report consumed by `getStats`:
`segments.offer_id`, `metrics.impressions`, `metrics.clicks`. -/
structure StatReportRow where
  offerId : String
  impressions : ℚ
  clicks : ℚ
deriving DecidableEq, Repr

/-- Embedding of `getStats` (part_000 lines 63-96), parametrised by the rows
the report download returned (the query construction and the download are
external to the merge logic).  An empty offer list returns the JS `null`
(`none`), and so does a report with zero rows; otherwise the offer-id keyed
metrics map is built by JS property assignment. -/
def getStats (reportRows : List StatReportRow) (offerList : List String) :
    Option (List (String × StatRecord)) :=
  if offerList.length > 0 then
    if reportRows.length > 0 then
      some (reportRows.foldl
        (fun m row => jsAssign m row.offerId ⟨row.impressions, row.clicks⟩) [])
    else none
  else none

/-- The contribution of one benchmark record when the stats argument is a
real mapping (the non-faulting case of `mergeRow`). -/
def emitRow (cfg : VBConfig) (productData : List (String × ProductRecord))
    (sd : List (String × StatRecord)) (row : BenchmarkRow) :
    Option (List Cell × List Cell) :=
  (mergeRow cfg productData (some sd) row).toOption.join

/-- The emission condition of C1, written as the claim states it: positive
benchmark price, an existing product record, a non-empty label that is in
the export allow-list, availability literally "in stock", and the stock
policy (always passing when stock tracking is disabled, otherwise requiring
the stock quantity — zero when non-numeric or empty — to reach the
threshold). -/
def eligibleForOutput (cfg : VBConfig)
    (pd : List (String × ProductRecord)) (row : BenchmarkRow) : Prop :=
  0 < row.priceCompetitiveness.benchmarkPriceMicros ∧
  ∃ prod, jsGet pd row.productView.id = some prod ∧
    calculateLabel cfg (row.productView.priceMicros /
      row.priceCompetitiveness.benchmarkPriceMicros - 1) ≠ "" ∧
    calculateLabel cfg (row.productView.priceMicros /
      row.priceCompetitiveness.benchmarkPriceMicros - 1) ∈ cfg.EXPORT_LABELS ∧
    prod.availability = "in stock" ∧
    (cfg.STOCK_ENABLED = false ∨
      prod.stockQuantity.getD 0 ≥ cfg.STOCK_THRESHOLD)

theorem checkStock_iff (cfg : VBConfig) (sq : Option ℚ) :
    checkStock cfg sq = true ↔
      (cfg.STOCK_ENABLED = false ∨ sq.getD 0 ≥ cfg.STOCK_THRESHOLD) := by
  cases he : cfg.STOCK_ENABLED
  · rcases sq with - | q <;> simp [checkStock, he]
  · rcases sq with - | q
    · by_cases hq : (0 : ℚ) ≥ cfg.STOCK_THRESHOLD
      · simp [checkStock, he, hq]
      · have hlt : (0 : ℚ) < cfg.STOCK_THRESHOLD := lt_of_not_ge hq
        simp [checkStock, he, hq, hlt]
    · by_cases hq : q ≥ cfg.STOCK_THRESHOLD
      · simp [checkStock, he, hq]
      · have hlt : q < cfg.STOCK_THRESHOLD := lt_of_not_ge hq
        simp [checkStock, he, hq, hlt]

theorem mergeRow_some_eq (cfg : VBConfig)
    (pd : List (String × ProductRecord)) (sd : List (String × StatRecord))
    (row : BenchmarkRow) :
    mergeRow cfg pd (some sd) row = .ok (emitRow cfg pd sd row) := by
  unfold emitRow
  by_cases h1 : row.priceCompetitiveness.benchmarkPriceMicros > 0
  · rcases hg : jsGet pd row.productView.id with - | prod
    · simp [mergeRow, h1, hg, Except.toOption, Option.join]
    · by_cases h2 : calculateLabel cfg (row.productView.priceMicros /
          row.priceCompetitiveness.benchmarkPriceMicros - 1) ∈
            cfg.EXPORT_LABELS ∧
          prod.availability = "in stock" ∧
          checkStock cfg prod.stockQuantity = true
      · simp [mergeRow, h1, hg, h2, Except.toOption, Option.join]
      · simp [mergeRow, h1, hg, h2, Except.toOption, Option.join]
  · simp [mergeRow, h1, Except.toOption, Option.join]

theorem mergeRows_some_eq (cfg : VBConfig)
    (pd : List (String × ProductRecord)) (sd : List (String × StatRecord))
    (bd : List BenchmarkRow) :
    mergeRows cfg pd (some sd) bd =
      .ok (bd.filterMap (fun r => (emitRow cfg pd sd r).map Prod.fst),
           bd.filterMap (fun r => (emitRow cfg pd sd r).map Prod.snd)) := by
  induction bd with
  | nil => simp [mergeRows]
  | cons row rest ih =>
    rw [mergeRows, mergeRow_some_eq, ih]
    rcases he : emitRow cfg pd sd row with - | ⟨d, s⟩ <;>
      simp [List.filterMap_cons, he]

theorem emitRow_isSome_iff (cfg : VBConfig)
    (pd : List (String × ProductRecord)) (sd : List (String × StatRecord))
    (row : BenchmarkRow) :
    (emitRow cfg pd sd row).isSome = true ↔
      (0 < row.priceCompetitiveness.benchmarkPriceMicros ∧
       ∃ prod, jsGet pd row.productView.id = some prod ∧
         (calculateLabel cfg (row.productView.priceMicros /
            row.priceCompetitiveness.benchmarkPriceMicros - 1) ∈
              cfg.EXPORT_LABELS ∧
          prod.availability = "in stock" ∧
          checkStock cfg prod.stockQuantity = true)) := by
  unfold emitRow
  by_cases h1 : row.priceCompetitiveness.benchmarkPriceMicros > 0
  · rcases hg : jsGet pd row.productView.id with - | prod
    · simp [mergeRow, h1, hg, Except.toOption, Option.join]
    · by_cases h2 : calculateLabel cfg (row.productView.priceMicros /
          row.priceCompetitiveness.benchmarkPriceMicros - 1) ∈
            cfg.EXPORT_LABELS ∧
          prod.availability = "in stock" ∧
          checkStock cfg prod.stockQuantity = true
      · obtain ⟨h2a, h2b, h2c⟩ := h2
        simp [mergeRow, h1, hg, h2a, h2b, h2c, Except.toOption, Option.join]
      · simp [mergeRow, h1, hg, h2, Except.toOption, Option.join]
  · simp [mergeRow, h1, Except.toOption, Option.join]

/-- C1: with a non-null stats mapping and an allow-list not containing the
empty string, `mergeData` emits the header rows plus exactly one detail row
and one supplemental row per benchmark record satisfying the emission
condition, and a record's rows are emitted iff the condition of the claim
holds for it. -/
theorem mergeData_emits_iff (cfg : VBConfig)
    (pd : List (String × ProductRecord)) (sd : List (String × StatRecord))
    (bd : List BenchmarkRow) (row : BenchmarkRow)
    (hε : "" ∉ cfg.EXPORT_LABELS) :
    mergeData cfg bd pd (some sd) =
      .ok (detailHeader cfg ::
             bd.filterMap (fun r => (emitRow cfg pd sd r).map Prod.fst),
           suppHeader cfg ::
             bd.filterMap (fun r => (emitRow cfg pd sd r).map Prod.snd)) ∧
    ((emitRow cfg pd sd row).isSome = true ↔ eligibleForOutput cfg pd row) := by
  constructor
  · rw [mergeData, mergeRows_some_eq]
  · rw [emitRow_isSome_iff]
    unfold eligibleForOutput
    refine and_congr_right fun _ => exists_congr fun prod =>
      and_congr_right fun _ => ?_
    rw [checkStock_iff]
    constructor
    · rintro ⟨ha, hb, hc⟩
      exact ⟨fun hlab => hε (hlab ▸ ha), ha, hb, hc⟩
    · rintro ⟨-, ha, hb, hc⟩
      exact ⟨ha, hb, hc⟩

/-- The benchmark record of the end-to-end example of the spec. -/
def row4 : BenchmarkRow :=
  ⟨⟨"1", "O1", "T", "B", 1100000, "USD"⟩, ⟨"US", 1000000⟩⟩

/-- The product map of the end-to-end example. -/
def pd4 : List (String × ProductRecord) := [("1", ⟨some 5, "in stock"⟩)]

/-- The stats map of the end-to-end example. -/
def sd4 : List (String × StatRecord) := [("O1", ⟨10, 2⟩)]

theorem mergeData_emits_iff_witness :
    mergeData cfg0 [row4] pd4 (some sd4) =
      .ok (detailHeader cfg0 ::
             List.filterMap
               (fun r => (emitRow cfg0 pd4 sd4 r).map Prod.fst) [row4],
           suppHeader cfg0 ::
             List.filterMap
               (fun r => (emitRow cfg0 pd4 sd4 r).map Prod.snd) [row4]) ∧
    ((emitRow cfg0 pd4 sd4 row4).isSome = true ↔
      eligibleForOutput cfg0 pd4 row4) :=
  mergeData_emits_iff cfg0 pd4 sd4 [row4] row4 (by simp [cfg0])

/-- C4: the end-to-end example — one benchmark record priced 10% over its
benchmark, an in-stock product, stats (10 impressions, 2 clicks), allow-list
["Above"], stock tracking disabled — produces a relative price of 0.1, the
label "Above", exactly one detail data row
["O1","T","B",1.1,"USD","US",1.0,0.1,"Above",10,2] after the header, and
exactly one supplemental data row ["O1","Above"] after its header. -/
theorem mergeData_end_to_end :
    mergeData cfg0 [row4] pd4 (some sd4) =
      .ok ([[.str "id", .str "title", .str "brand", .str "current_price",
             .str "currency", .str "country", .str "benchmark_price",
             .str "% current vs. benchmark", .str "custom_label_0",
             .str "impressions", .str "clicks"],
            [.str "O1", .str "T", .str "B", .num 1.1, .str "USD", .str "US",
             .num 1, .num 0.1, .str "Above", .num 10, .num 2]],
           [[.str "id", .str "custom_label_0"],
            [.str "O1", .str "Above"]]) ∧
    (1100000 : ℚ) / 1000000 - 1 = 0.1 ∧
    calculateLabel cfg0 0.1 = "Above" := by
  refine ⟨?_, by norm_num, ?_⟩
  · norm_num [mergeData, mergeRows, mergeRow, jsGet, cfg0, row4, pd4, sd4,
      calculateLabel, checkStock, detailHeader, suppHeader]
    rfl
  · norm_num [calculateLabel, cfg0]

/-- C8: `getStats` returns the JS null (`none`), not an empty mapping, both
for an empty offer list and for a stats report with zero rows; with a null
stats argument `mergeData` faults on the first eligible benchmark record
(the `statsData[offerId]` lookup), while with a non-null mapping an absent
offer id defaults impressions and clicks to 0. -/
theorem getStats_null_and_merge_fault :
    (∀ reportRows : List StatReportRow, getStats reportRows [] = none) ∧
    (∀ offerList : List String, getStats [] offerList = none) ∧
    mergeData cfg0 [row4] pd4 none = .error () ∧
    mergeData cfg0 [row4] pd4 (some []) =
      .ok ([detailHeader cfg0,
            [.str "O1", .str "T", .str "B", .num 1.1, .str "USD", .str "US",
             .num 1, .num 0.1, .str "Above", .num 0, .num 0]],
           [suppHeader cfg0, [.str "O1", .str "Above"]]) := by
  refine ⟨fun reportRows => by simp [getStats], fun offerList => ?_, ?_, ?_⟩
  · rcases offerList with - | ⟨a, rest⟩ <;> simp [getStats]
  · norm_num [mergeData, mergeRows, mergeRow, jsGet, cfg0, row4, pd4,
      calculateLabel, checkStock]
  · norm_num [mergeData, mergeRows, mergeRow, jsGet, cfg0, row4, pd4,
      calculateLabel, checkStock, detailHeader, suppHeader]

/-- A JS/JSON value: null, string, number, array, or object (an association
list of own enumerable properties in insertion order). -/
inductive JVal where
  | null : JVal
  | str : String → JVal
  | num : ℚ → JVal
  | arr : List JVal → JVal
  | obj : List (String × JVal) → JVal
deriving Repr

instance : Inhabited JVal := ⟨JVal.null⟩

/-- Dot-joined path construction of `flattenHelper`:
`field ? field + "." + subField : subField`. -/
def dotJoin (field k : String) : String :=
  if field = "" then k else field ++ "." ++ k

/-- Sequential JS property assignment of a list of pairs, as performed by
`Object.assign` on already-materialised objects. -/
def jsAssignMany (m l : List (String × JVal)) : List (String × JVal) :=
  l.foldl (fun acc p => jsAssign acc p.1 p.2) m

/-- Own enumerable properties contributed by a value spread into
`Object.assign({}, ...)`: an object's pairs, an array's or string's indexed
elements, nothing for other primitives. -/
def jsSpreadPairs : JVal → List (String × JVal)
  | .obj l => l
  | .arr xs =>
      ((List.range xs.length).zip xs).map (fun p => (toString p.1, p.2))
  | .str s =>
      ((List.range s.data.length).zip
        (s.data.map (fun c => JVal.str (String.mk [c])))).map
        (fun p => (toString p.1, p.2))
  | _ => []

mutual

/-- Embedding of `flattenHelper` (part_000 lines 276-288): a non-null,
non-array object is flattened by merging the recursively flattened members
with `Object.assign({}, ...)`; anything else is a leaf, wrapped as
`{field: value}` when the current path is non-empty and returned unchanged
at the top level. -/
def flattenHelper : JVal → String → JVal
  | .obj l, field => .obj (jsAssignMany [] (flattenFields l field))
  | v, field => if field = "" then v else .obj [(field, v)]

/-- The members of an object, flattened in order with the extended dotted
path, each contributing its spread properties to the enclosing
`Object.assign`. -/
def flattenFields : List (String × JVal) → String → List (String × JVal)
  | [], _ => []
  | (k, v) :: rest, field =>
      jsSpreadPairs (flattenHelper v (dotJoin field k)) ++
        flattenFields rest field

end

/-- Embedding of `flatten` (part_000 lines 261-290): the top-level call uses
the empty path. -/
def flatten (src : JVal) : JVal := flattenHelper src ""

/-- C10: a member whose value is an object with no own keys contributes
nothing to `flatten`'s output — removing such a member does not change the
result at any path (first two conjuncts) — concretely
`flatten {a: {}, b: 1} = {b: 1}`, even though a top-level empty object still
flattens to the empty mapping; two distinct inputs thus share one flattened
form, so such inputs are not recoverable from it. -/
theorem flatten_drops_empty_subobjects :
    (∀ (l1 l2 : List (String × JVal)) (k field : String),
      flattenFields (l1 ++ (k, .obj []) :: l2) field =
        flattenFields (l1 ++ l2) field) ∧
    (∀ (l1 l2 : List (String × JVal)) (k : String),
      flatten (.obj (l1 ++ (k, .obj []) :: l2)) = flatten (.obj (l1 ++ l2))) ∧
    flatten (.obj [("a", .obj []), ("b", .num 1)]) = .obj [("b", .num 1)] ∧
    flatten (.obj []) = .obj [] ∧
    flatten (.obj [("a", .obj []), ("b", .num 1)]) =
      flatten (.obj [("b", .num 1)]) ∧
    (JVal.obj [("a", .obj []), ("b", .num 1)]) ≠ .obj [("b", .num 1)] := by
  have hf : ∀ (l1 l2 : List (String × JVal)) (k field : String),
      flattenFields (l1 ++ (k, .obj []) :: l2) field =
        flattenFields (l1 ++ l2) field := by
    intro l1 l2 k field
    induction l1 with
    | nil =>
      simp [flattenFields, flattenHelper, jsSpreadPairs, jsAssignMany]
    | cons p rest ih =>
      rcases p with ⟨k', v'⟩
      simp only [List.cons_append, flattenFields]
      exact congrArg
        (fun t => jsSpreadPairs (flattenHelper v' (dotJoin field k')) ++ t) ih
  refine ⟨hf, fun l1 l2 k => ?_, rfl, rfl, rfl, by simp⟩
  show JVal.obj _ = JVal.obj _
  rw [hf]

/-- The JS `String.prototype.startsWith`, computed on the character
lists. -/
def jsStartsWith (s pre : String) : Bool := pre.data.isPrefixOf s.data

/-- Embedding of `GoogleAdsApi.getResultFrom` (google_ads_api.js lines
46-52), parametrised by the platform `JSON.parse` (a fallible
text-to-JSON function): a response whose text starts with the HTML document
marker is short-circuited to the empty successful object before any parsing;
everything else is handed to the parser. -/
def getResultFrom (jsonParse : String → Except Unit JVal)
    (httpResponse : String) : Except Unit JVal :=
  if jsStartsWith httpResponse "<!DOCTYPE html>" then .ok (.obj [])
  else jsonParse httpResponse

/-- Embedding of `MerchantCenterAPI.call` (merchant_center.js lines 33-58):
both branches end in `JSON.parse(response.getContentText())` — the raw text
is handed to the parser unconditionally, with no HTML-marker guard. -/
def MerchantCenterAPI.call (jsonParse : String → Except Unit JVal)
    (responseText : String) : Except Unit JVal :=
  jsonParse responseText

/-- Stand-in for the platform `JSON.parse` used at concrete inputs: an HTML
document is never valid JSON, so the parser faults exactly on strings
starting with the HTML document marker and succeeds elsewhere. -/
def jsonParse0 (s : String) : Except Unit JVal :=
  if jsStartsWith s "<!DOCTYPE html>" then .error () else .ok (.obj [])

/-- A concrete HTML auth interstitial body. -/
def htmlDoc : String := "<!DOCTYPE html><html><body>Sign in</body></html>"

/-- C7 counterexample: on the same HTML interstitial the Google Ads path
returns the empty successful object, but the Merchant Center path hands the
text to `JSON.parse` and propagates the parse failure — the claimed
treatment does not hold on every fetch path the core consumes. -/
theorem html_interstitial_merchant_path_fails :
    getResultFrom jsonParse0 htmlDoc = .ok (.obj []) ∧
    MerchantCenterAPI.call jsonParse0 htmlDoc = .error () ∧
    MerchantCenterAPI.call jsonParse0 htmlDoc ≠ .ok (.obj []) := by
  have h2 : MerchantCenterAPI.call jsonParse0 htmlDoc = .error () := rfl
  exact ⟨rfl, h2, fun h => by rw [h2] at h; exact Except.noConfusion h⟩

/-- C7 (amended): the HTML-interstitial-as-empty-success treatment holds on
the Google Ads report path for every parser and every marked response text,
while the Merchant Center path always defers to the parser. -/
theorem html_interstitial_ads_path_only :
    (∀ (jsonParse : String → Except Unit JVal) (raw : String),
      jsStartsWith raw "<!DOCTYPE html>" = true →
      getResultFrom jsonParse raw = .ok (.obj [])) ∧
    (∀ (jsonParse : String → Except Unit JVal) (raw : String),
      MerchantCenterAPI.call jsonParse raw = jsonParse raw) :=
  ⟨fun _ raw h => by simp [getResultFrom, h], fun _ _ => rfl⟩

theorem html_interstitial_ads_path_only_witness :
    jsStartsWith htmlDoc "<!DOCTYPE html>" = true ∧
    getResultFrom jsonParse0 htmlDoc = .ok (.obj []) :=
  ⟨rfl, html_interstitial_ads_path_only.1 jsonParse0 htmlDoc rfl⟩

/-- Splitting a character list at every dot (accumulator holds the current
segment reversed); used to read a dotted path back into its segments. -/
def splitDotsAux : List Char → List Char → List String
  | [], acc => [String.mk acc.reverse]
  | c :: cs, acc =>
      if c = '.' then String.mk acc.reverse :: splitDotsAux cs []
      else splitDotsAux cs (c :: acc)

/-- The segments of a dotted path string. -/
def splitDots (s : String) : List String := splitDotsAux s.data []

/-- Replacement of the value at an existing key, keeping its position. -/
def replaceKey (m : List (String × JVal)) (k : String) (v : JVal) :
    List (String × JVal) :=
  m.map (fun p => if p.1 = k then (k, v) else p)

/-- The member list of an object value, empty for anything else. -/
def subFields : JVal → List (String × JVal)
  | .obj l => l
  | _ => []

/-- Insertion of a value along a path of segments into a nested mapping:
the last segment is a JS property assignment; an intermediate segment
descends into the existing sub-object at that key (creating the key at the
end when absent). -/
def setPath : List (String × JVal) → List String → JVal → List (String × JVal)
  | m, [], _ => m
  | m, [k], v => jsAssign m k v
  | m, k :: k2 :: rest, v =>
      match jsGet m k with
      | some old => replaceKey m k (.obj (setPath (subFields old) (k2 :: rest) v))
      | none => m ++ [(k, .obj (setPath [] (k2 :: rest) v))]

/-- Insertion of flattened entries, splitting each dotted key. -/
def insertEntries (m : List (String × JVal))
    (entries : List (String × JVal)) : List (String × JVal) :=
  entries.foldl (fun acc e => setPath acc (splitDots e.1) e.2) m

/-- Reconstruction of a nested mapping from the dotted-path keys of a
flattened object — the inverse direction of the round-trip property stated
by the spec (§8); a non-object is left unchanged. -/
def unflatten : JVal → JVal
  | .obj pairs => .obj (insertEntries [] pairs)
  | v => v

/-- Insertion of entries whose paths are already segment lists; proof-side
view of `insertEntries`. -/
def insertP (m : List (String × JVal))
    (entries : List (List String × JVal)) : List (String × JVal) :=
  entries.foldl (fun acc e => setPath acc e.1 e.2) m

/-- The dotted path obtained by extending `field` with the segments of `p`
in order, exactly as the recursion of `flattenHelper` does. -/
def dotJoinAll (field : String) (p : List String) : String :=
  p.foldl dotJoin field

/-- Character-level encoding of a path suffix: each segment contributes a
dot followed by its characters. -/
def pathData : List String → List Char
  | [] => []
  | s :: rest => '.' :: s.data ++ pathData rest

mutual

/-- The canonical (path, leaf) pairs of a member value: a leaf sits at the
empty relative path, an object contributes its members' paths. -/
def pathsVal : JVal → List (List String × JVal)
  | .obj l => pathsFields l
  | v => [([], v)]

/-- The canonical (path, leaf) pairs of a member list, each member's paths
extended with its key. -/
def pathsFields : List (String × JVal) → List (List String × JVal)
  | [] => []
  | (k, v) :: rest =>
      (pathsVal v).map (fun e => (k :: e.1, e.2)) ++ pathsFields rest

end

mutual

/-- Well-formedness of a member value for the round-trip: no arrays, and
nested objects are non-empty with well-formed members. -/
def wfMemberVal : JVal → Bool
  | .null => true
  | .str _ => true
  | .num _ => true
  | .arr _ => false
  | .obj l => !l.isEmpty && wfFields l

/-- Well-formedness of a member list for the round-trip: keys are
non-empty, dot-free and pairwise distinct, members are well-formed. -/
def wfFields : List (String × JVal) → Bool
  | [] => true
  | (k, v) :: rest =>
      k != "" && !(k.data.contains '.') && !(rest.any (fun p => p.1 == k)) &&
        wfMemberVal v && wfFields rest

end

mutual

/-- The value contains no array anywhere (hypothesis of the round-trip
claim). -/
def noArraysVal : JVal → Bool
  | .arr _ => false
  | .obj l => noArraysFields l
  | _ => true

/-- No member of the list contains an array. -/
def noArraysFields : List (String × JVal) → Bool
  | [] => true
  | (_, v) :: rest => noArraysVal v && noArraysFields rest

end

theorem mk_data (s : String) : String.mk s.data = s := rfl

theorem splitDotsAux_no_dot (a : List Char) :
    ∀ acc : List Char, '.' ∉ a →
      splitDotsAux a acc = [String.mk (acc.reverse ++ a)] := by
  induction a with
  | nil => intro acc h; simp [splitDotsAux]
  | cons c cs ih =>
    intro acc h
    have hc : ¬ (c = '.') := fun hh => h (hh ▸ List.mem_cons_self c cs)
    rw [splitDotsAux, if_neg hc, ih (c :: acc)
      (fun hm => h (List.mem_cons_of_mem c hm))]
    simp

theorem splitDotsAux_dot (a b : List Char) :
    ∀ acc : List Char, '.' ∉ a →
      splitDotsAux (a ++ '.' :: b) acc =
        String.mk (acc.reverse ++ a) :: splitDotsAux b [] := by
  induction a with
  | nil => intro acc h; simp [splitDotsAux]
  | cons c cs ih =>
    intro acc h
    have hc : ¬ (c = '.') := fun hh => h (hh ▸ List.mem_cons_self c cs)
    rw [List.cons_append, splitDotsAux, if_neg hc, ih (c :: acc)
      (fun hm => h (List.mem_cons_of_mem c hm))]
    simp

theorem dotJoin_ne_empty (f s : String) (hf : f ≠ "") : dotJoin f s ≠ "" := by
  intro h
  rw [dotJoin, if_neg hf] at h
  have hd := congrArg String.data h
  simp [String.data_append] at hd

theorem dotJoin_data (f s : String) (hf : f ≠ "") :
    (dotJoin f s).data = f.data ++ '.' :: s.data := by
  rw [dotJoin, if_neg hf]
  have hdot : (".").data = ['.'] := rfl
  simp [String.data_append, hdot]

theorem dotJoinAll_data (p : List String) :
    ∀ f : String, f ≠ "" → (dotJoinAll f p).data = f.data ++ pathData p := by
  induction p with
  | nil => intro f hf; simp [dotJoinAll, pathData]
  | cons s rest ih =>
    intro f hf
    show (dotJoinAll (dotJoin f s) rest).data = _
    rw [ih (dotJoin f s) (dotJoin_ne_empty f s hf), dotJoin_data f s hf,
      pathData]
    simp

theorem append_dot_inj : ∀ (a c u v : List Char), '.' ∉ a → '.' ∉ c →
    (u = [] ∨ u.head? = some '.') → (v = [] ∨ v.head? = some '.') →
    a ++ u = c ++ v → a = c ∧ u = v := by
  intro a
  induction a with
  | nil =>
    intro c u v ha hc hu hv h
    cases c with
    | nil => exact ⟨rfl, h⟩
    | cons ch cs =>
      rcases hu with rfl | hu
      · simp at h
      · have h' : u = ch :: (cs ++ v) := h
        rw [h'] at hu
        simp at hu
        exact absurd (hu ▸ List.mem_cons_self ch cs) hc
  | cons ch cs ih =>
    intro c u v ha hc hu hv h
    cases c with
    | nil =>
      rcases hv with rfl | hv
      · simp at h
      · have h' : v = ch :: (cs ++ u) := h.symm
        rw [h'] at hv
        simp at hv
        exact absurd (hv ▸ List.mem_cons_self ch cs) ha
    | cons ch2 cs2 =>
      simp only [List.cons_append, List.cons.injEq] at h
      obtain ⟨h1, h2⟩ := h
      obtain ⟨hA, hU⟩ := ih cs2 u v
        (fun hm => ha (List.mem_cons_of_mem ch hm))
        (fun hm => hc (List.mem_cons_of_mem ch2 hm)) hu hv h2
      exact ⟨by rw [h1, hA], hU⟩

theorem pathData_head (p : List String) :
    pathData p = [] ∨ (pathData p).head? = some '.' := by
  cases p with
  | nil => exact Or.inl rfl
  | cons s rest => right; simp [pathData]

theorem pathData_inj : ∀ (p q : List String),
    (∀ s ∈ p, '.' ∉ s.data) → (∀ s ∈ q, '.' ∉ s.data) →
    pathData p = pathData q → p = q := by
  intro p
  induction p with
  | nil =>
    intro q hp hq h
    cases q with
    | nil => rfl
    | cons t ts => simp [pathData] at h
  | cons s ss ih =>
    intro q hp hq h
    cases q with
    | nil => simp [pathData] at h
    | cons t ts =>
      simp only [pathData, List.cons_append, List.cons.injEq] at h
      obtain ⟨-, h⟩ := h
      obtain ⟨hA, hU⟩ := append_dot_inj s.data t.data (pathData ss)
        (pathData ts) (hp s (List.mem_cons_self s ss))
        (hq t (List.mem_cons_self t ts)) (pathData_head ss)
        (pathData_head ts) h
      rw [String.ext hA, ih ts (fun x hx => hp x (List.mem_cons_of_mem s hx))
        (fun x hx => hq x (List.mem_cons_of_mem t hx)) hU]

theorem splitDotsAux_pathData : ∀ (p : List String) (fc : List Char),
    '.' ∉ fc → (∀ s ∈ p, '.' ∉ s.data) →
    splitDotsAux (fc ++ pathData p) [] = String.mk fc :: p := by
  intro p
  induction p with
  | nil =>
    intro fc hf hp
    rw [pathData, List.append_nil, splitDotsAux_no_dot fc [] hf]
    simp
  | cons s rest ih =>
    intro fc hf hp
    rw [pathData, List.cons_append,
      splitDotsAux_dot fc (s.data ++ pathData rest) [] hf,
      ih s.data (hp s (List.mem_cons_self s rest))
        (fun x hx => hp x (List.mem_cons_of_mem s hx))]
    simp [mk_data]

theorem splitDots_dotJoinAll (p : List String) (f : String) (hf : f ≠ "")
    (hfd : '.' ∉ f.data) (hp : ∀ s ∈ p, '.' ∉ s.data) :
    splitDots (dotJoinAll f p) = f :: p := by
  rw [splitDots, dotJoinAll_data p f hf,
    splitDotsAux_pathData p f.data hfd hp, mk_data]

theorem jsAssign_not_mem {β : Type} (m : List (String × β)) (k : String)
    (v : β) (h : ∀ p ∈ m, p.1 ≠ k) : jsAssign m k v = m ++ [(k, v)] := by
  rw [jsAssign, if_neg]
  intro hc
  simp only [List.any_eq_true, decide_eq_true_eq] at hc
  obtain ⟨p, hp, he⟩ := hc
  exact h p hp he

theorem jsAssignMany_append_of_disjoint :
    ∀ (xs m : List (String × JVal)),
    (∀ p ∈ xs, ∀ q ∈ m, q.1 ≠ p.1) → (xs.map Prod.fst).Nodup →
    jsAssignMany m xs = m ++ xs := by
  intro xs
  induction xs with
  | nil => intro m h hn; simp [jsAssignMany]
  | cons x rest ih =>
    intro m h hn
    have hstep : jsAssignMany m (x :: rest) =
        jsAssignMany (jsAssign m x.1 x.2) rest := rfl
    rw [hstep, jsAssign_not_mem m x.1 x.2
      (fun q hq => h x (List.mem_cons_self x rest) q hq)]
    simp only [List.map_cons, List.nodup_cons] at hn
    rw [ih (m ++ [(x.1, x.2)]) ?_ hn.2]
    · simp
    · intro p hp q hq
      rcases List.mem_append.mp hq with hq1 | hq2
      · exact h p (List.mem_cons_of_mem x hp) q hq1
      · have hx : q = (x.1, x.2) := by simpa using hq2
        rw [hx]
        intro he
        exact hn.1 (he ▸ List.mem_map_of_mem Prod.fst hp)

theorem jsGet_eq_none {β : Type} :
    ∀ (m : List (String × β)) (k : String),
    (∀ p ∈ m, p.1 ≠ k) → jsGet m k = none := by
  intro m k
  induction m with
  | nil => intro h; rfl
  | cons p rest ih =>
    intro h
    rcases p with ⟨k', v'⟩
    rw [jsGet, if_neg (h (k', v') (List.mem_cons_self _ _))]
    exact ih fun q hq => h q (List.mem_cons_of_mem _ hq)

theorem jsGet_append_last {β : Type} :
    ∀ (m1 : List (String × β)) (k : String) (x : β),
    (∀ p ∈ m1, p.1 ≠ k) → jsGet (m1 ++ [(k, x)]) k = some x := by
  intro m1 k x
  induction m1 with
  | nil => intro h; simp [jsGet]
  | cons p rest ih =>
    intro h
    rcases p with ⟨k', v'⟩
    rw [List.cons_append, jsGet, if_neg (h (k', v') (List.mem_cons_self _ _))]
    exact ih fun q hq => h q (List.mem_cons_of_mem _ hq)

theorem replaceKey_append_last :
    ∀ (m1 : List (String × JVal)) (k : String) (v new : JVal),
    (∀ p ∈ m1, p.1 ≠ k) →
    replaceKey (m1 ++ [(k, v)]) k new = m1 ++ [(k, new)] := by
  intro m1 k v new
  induction m1 with
  | nil => intro h; simp [replaceKey]
  | cons p rest ih =>
    intro h
    rcases p with ⟨k', v'⟩
    rw [List.cons_append, replaceKey, List.map_cons]
    have hne : ¬ ((k', v').1 = k) := h (k', v') (List.mem_cons_self _ _)
    rw [if_neg hne]
    have := ih fun q hq => h q (List.mem_cons_of_mem _ hq)
    rw [replaceKey] at this
    rw [this]
    simp

theorem wfMemberVal_obj (l : List (String × JVal)) :
    wfMemberVal (.obj l) = true ↔ (l ≠ [] ∧ wfFields l = true) := by
  cases l <;> simp [wfMemberVal]

theorem wfFields_cons (k : String) (v : JVal) (rest : List (String × JVal)) :
    wfFields ((k, v) :: rest) = true ↔
      (k ≠ "" ∧ '.' ∉ k.data ∧ (∀ p ∈ rest, p.1 ≠ k) ∧
       wfMemberVal v = true ∧ wfFields rest = true) := by
  simp [wfFields, Prod.forall, and_assoc]

/-- Structural facts about the canonical paths of well-formed values: a
well-formed member contributes at least one path, paths are non-empty with
non-empty dot-free segments, their first segment is a key of the list, and
they are pairwise distinct. -/
theorem paths_facts : ∀ n : ℕ,
    (∀ v : JVal, sizeOf v ≤ n → wfMemberVal v = true →
      (pathsVal v ≠ [] ∧
       (∀ e ∈ pathsVal v, ∀ s ∈ e.1, s ≠ "" ∧ '.' ∉ s.data) ∧
       ((pathsVal v).map Prod.fst).Nodup)) ∧
    (∀ l : List (String × JVal), sizeOf l ≤ n → wfFields l = true →
      ((l ≠ [] → pathsFields l ≠ []) ∧
       (∀ e ∈ pathsFields l, ∃ k p, e.1 = k :: p ∧ k ∈ l.map Prod.fst) ∧
       (∀ e ∈ pathsFields l, ∀ s ∈ e.1, s ≠ "" ∧ '.' ∉ s.data) ∧
       ((pathsFields l).map Prod.fst).Nodup)) := by
  intro n
  induction n using Nat.strong_induction_on with
  | _ n ih =>
  constructor
  · intro v hs hwf
    have hleaf : ∀ w : JVal, pathsVal w = [([], w)] →
        (pathsVal w ≠ [] ∧
         (∀ e ∈ pathsVal w, ∀ s ∈ e.1, s ≠ "" ∧ '.' ∉ s.data) ∧
         ((pathsVal w).map Prod.fst).Nodup) := by
      intro w hw
      rw [hw]
      refine ⟨List.cons_ne_nil _ _, ?_, List.nodup_singleton _⟩
      intro e he s hsm
      have he' : e = ([], w) := by simpa using he
      rw [he'] at hsm
      simp at hsm
    cases v with
    | null => exact hleaf _ rfl
    | str a => exact hleaf _ rfl
    | num q => exact hleaf _ rfl
    | arr xs => simp [wfMemberVal] at hwf
    | obj l =>
      rw [wfMemberVal_obj] at hwf
      obtain ⟨hne, hwfl⟩ := hwf
      have hlt : sizeOf l < n := by
        have h1 : sizeOf (JVal.obj l) = 1 + sizeOf l := by simp
        omega
      obtain ⟨hfne, -, hsegs, hnd⟩ := (ih (sizeOf l) hlt).2 l le_rfl hwfl
      exact ⟨hfne hne, hsegs, hnd⟩
  · intro l hs hwf
    cases l with
    | nil =>
      exact ⟨fun h => absurd rfl h, by simp [pathsFields],
        by simp [pathsFields], by simp [pathsFields]⟩
    | cons hd rest =>
      rcases hd with ⟨k, v⟩
      rw [wfFields_cons] at hwf
      obtain ⟨hk1, hk2, hk3, hv, hrest⟩ := hwf
      simp only [List.cons.sizeOf_spec, Prod.mk.sizeOf_spec] at hs
      have hv_lt : sizeOf v < n := by omega
      have hr_lt : sizeOf rest < n := by omega
      obtain ⟨hvne, hvsegs, hvnd⟩ := (ih (sizeOf v) hv_lt).1 v le_rfl hv
      obtain ⟨-, hrfirst, hrsegs, hrnd⟩ :=
        (ih (sizeOf rest) hr_lt).2 rest le_rfl hrest
      simp only [pathsFields]
      refine ⟨fun _ => ?_, ?_, ?_, ?_⟩
      · rcases hpv : pathsVal v with - | ⟨e0, es⟩
        · exact absurd hpv hvne
        · simp [hpv]
      · intro e he
        rcases List.mem_append.mp he with hL | hR
        · obtain ⟨e0, he0, rfl⟩ := List.mem_map.mp hL
          exact ⟨k, e0.1, rfl, by simp⟩
        · obtain ⟨k', p, hep, hkmem⟩ := hrfirst e hR
          exact ⟨k', p, hep, by simp [hkmem]⟩
      · intro e he s hsm
        rcases List.mem_append.mp he with hL | hR
        · obtain ⟨e0, he0, rfl⟩ := List.mem_map.mp hL
          rcases List.mem_cons.mp hsm with rfl | hs0
          · exact ⟨hk1, hk2⟩
          · exact hvsegs e0 he0 s hs0
        · exact hrsegs e hR s hsm
      · rw [List.map_append]
        apply List.Nodup.append
        · rw [List.map_map]
          have h2 : (Prod.fst ∘ fun e : List String × JVal =>
              ((k :: e.1 : List String), e.2)) =
              (fun p : List String => k :: p) ∘ Prod.fst := rfl
          rw [h2, ← List.map_map]
          exact List.Nodup.map (fun a b hab => by simpa using hab) hvnd
        · exact hrnd
        · intro a haL haR
          obtain ⟨e0, he0, ha0⟩ := List.mem_map.mp haL
          obtain ⟨x, hx, hxe⟩ := List.mem_map.mp he0
          obtain ⟨e1, he1, ha1⟩ := List.mem_map.mp haR
          obtain ⟨k', p, hep, hkmem⟩ := hrfirst e1 he1
          obtain ⟨q, hq, hqk⟩ := List.mem_map.mp hkmem
          have hka : a = k :: x.1 := by rw [← ha0, ← hxe]
          have hka' : a = k' :: p := by rw [← ha1, hep]
          rw [hka] at hka'
          injection hka' with hh1 hh2
          exact hk3 q hq (hqk.trans hh1.symm)

theorem dotJoinAll_cons (f k : String) (p : List String) :
    dotJoinAll f (k :: p) = dotJoinAll (dotJoin f k) p := rfl

theorem dotJoin_ne_empty_right (f k : String) (hk : k ≠ "") :
    dotJoin f k ≠ "" := by
  by_cases hf : f = ""
  · rw [dotJoin, if_pos hf]; exact hk
  · exact dotJoin_ne_empty f k hf

/-- Under well-formedness, `flatten` computes exactly the canonical paths,
each encoded as a dotted string: the `Object.assign` merges collapse to
plain concatenation because all produced keys are distinct. -/
theorem flatten_paths : ∀ n : ℕ,
    (∀ (v : JVal) (f : String), sizeOf v ≤ n → wfMemberVal v = true →
      f ≠ "" →
      jsSpreadPairs (flattenHelper v f) =
        (pathsVal v).map (fun e => (dotJoinAll f e.1, e.2))) ∧
    (∀ (l : List (String × JVal)) (f : String), sizeOf l ≤ n →
      wfFields l = true →
      flattenFields l f =
        (pathsFields l).map (fun e => (dotJoinAll f e.1, e.2))) := by
  intro n
  induction n using Nat.strong_induction_on with
  | _ n ih =>
  constructor
  · intro v f hs hwf hf
    cases v with
    | null => simp [flattenHelper, hf, jsSpreadPairs, pathsVal, dotJoinAll]
    | str a => simp [flattenHelper, hf, jsSpreadPairs, pathsVal, dotJoinAll]
    | num q => simp [flattenHelper, hf, jsSpreadPairs, pathsVal, dotJoinAll]
    | arr xs => simp [wfMemberVal] at hwf
    | obj l =>
      rw [wfMemberVal_obj] at hwf
      obtain ⟨hne, hwfl⟩ := hwf
      have hlt : sizeOf l < n := by
        have h1 : sizeOf (JVal.obj l) = 1 + sizeOf l := by simp
        omega
      have hFF := (ih (sizeOf l) hlt).2 l f le_rfl hwfl
      obtain ⟨-, -, hsegs, hnd⟩ :=
        (paths_facts (sizeOf l)).2 l le_rfl hwfl
      show jsAssignMany [] (flattenFields l f) = _
      rw [hFF]
      have hkeys : (((pathsFields l).map
          (fun e => (dotJoinAll f e.1, e.2))).map Prod.fst).Nodup := by
        rw [List.map_map]
        have h2 : (Prod.fst ∘ fun e : List String × JVal =>
            (dotJoinAll f e.1, e.2)) =
            (fun p : List String => dotJoinAll f p) ∘ Prod.fst := rfl
        rw [h2, ← List.map_map]
        refine List.Nodup.map_on ?_ hnd
        intro p hp q hq hpq
        obtain ⟨ep, hep, hep1⟩ := List.mem_map.mp hp
        obtain ⟨eq', heq, heq1⟩ := List.mem_map.mp hq
        have hdp : f.data ++ pathData p = f.data ++ pathData q := by
          rw [← dotJoinAll_data p f hf, ← dotJoinAll_data q f hf, hpq]
        have hpd : pathData p = pathData q := by
          exact List.append_cancel_left hdp
        exact pathData_inj p q
          (fun s hsm => (hsegs ep hep s (hep1 ▸ hsm)).2)
          (fun s hsm => (hsegs eq' heq s (heq1 ▸ hsm)).2) hpd
      rw [jsAssignMany_append_of_disjoint _ []
        (fun p hp q hq => absurd hq (List.not_mem_nil q)) hkeys]
      rfl
  · intro l f hs hwf
    cases l with
    | nil => rfl
    | cons hd rest =>
      rcases hd with ⟨k, v⟩
      rw [wfFields_cons] at hwf
      obtain ⟨hk1, hk2, hk3, hv, hrest⟩ := hwf
      simp only [List.cons.sizeOf_spec, Prod.mk.sizeOf_spec] at hs
      have hv_lt : sizeOf v < n := by omega
      have hr_lt : sizeOf rest < n := by omega
      have hM := (ih (sizeOf v) hv_lt).1 v (dotJoin f k) le_rfl hv
        (dotJoin_ne_empty_right f k hk1)
      have hR := (ih (sizeOf rest) hr_lt).2 rest f le_rfl hrest
      show jsSpreadPairs (flattenHelper v (dotJoin f k)) ++
          flattenFields rest f = _
      rw [hM, hR]
      simp only [pathsFields, List.map_append, List.map_map]
      rfl

theorem setPath_descend (m1 mk : List (String × JVal)) (k : String)
    (p : List String) (v : JVal) (hp : p ≠ []) (h : ∀ q ∈ m1, q.1 ≠ k) :
    setPath (m1 ++ [(k, .obj mk)]) (k :: p) v =
      m1 ++ [(k, .obj (setPath mk p v))] := by
  cases p with
  | nil => exact absurd rfl hp
  | cons k2 rest =>
    have h0 : setPath (m1 ++ [(k, .obj mk)]) (k :: k2 :: rest) v =
        match jsGet (m1 ++ [(k, .obj mk)]) k with
        | some old => replaceKey (m1 ++ [(k, .obj mk)]) k
            (.obj (setPath (subFields old) (k2 :: rest) v))
        | none =>
            (m1 ++ [(k, .obj mk)]) ++
              [(k, .obj (setPath [] (k2 :: rest) v))] := rfl
    rw [h0, jsGet_append_last m1 k (.obj mk) h]
    show replaceKey (m1 ++ [(k, JVal.obj mk)]) k
        (JVal.obj (setPath mk (k2 :: rest) v)) =
      m1 ++ [(k, JVal.obj (setPath mk (k2 :: rest) v))]
    exact replaceKey_append_last m1 k (JVal.obj mk)
      (JVal.obj (setPath mk (k2 :: rest) v)) h

theorem setPath_fresh (m : List (String × JVal)) (k : String)
    (p : List String) (v : JVal) (hp : p ≠ []) (h : ∀ q ∈ m, q.1 ≠ k) :
    setPath m (k :: p) v = m ++ [(k, .obj (setPath [] p v))] := by
  cases p with
  | nil => exact absurd rfl hp
  | cons k2 rest =>
    simp only [setPath]
    rw [jsGet_eq_none m k h]

theorem insertP_under_key :
    ∀ (entries : List (List String × JVal))
      (m1 mk : List (String × JVal)) (k : String),
    (∀ e ∈ entries, e.1 ≠ []) → (∀ q ∈ m1, q.1 ≠ k) →
    insertP (m1 ++ [(k, .obj mk)])
        (entries.map (fun e => ((k :: e.1 : List String), e.2))) =
      m1 ++ [(k, .obj (insertP mk entries))] := by
  intro entries
  induction entries with
  | nil => intro m1 mk k h1 h2; rfl
  | cons e es ih =>
    intro m1 mk k h1 h2
    have hstep : insertP (m1 ++ [(k, .obj mk)])
        (((e :: es).map (fun e => ((k :: e.1 : List String), e.2)))) =
        insertP (setPath (m1 ++ [(k, .obj mk)]) (k :: e.1) e.2)
          (es.map (fun e => ((k :: e.1 : List String), e.2))) := rfl
    rw [hstep, setPath_descend m1 mk k e.1 e.2
      (h1 e (List.mem_cons_self e es)) h2,
      ih m1 (setPath mk e.1 e.2) k
        (fun x hx => h1 x (List.mem_cons_of_mem e hx)) h2]
    rfl

theorem insertP_append (m : List (String × JVal))
    (a b : List (List String × JVal)) :
    insertP m (a ++ b) = insertP (insertP m a) b := by
  simp [insertP]

/-- Inserting the canonical paths of a well-formed member list into a map
with disjoint keys appends the list unchanged. -/
theorem insertP_paths : ∀ n : ℕ,
    (∀ (v : JVal) (k : String) (m : List (String × JVal)), sizeOf v ≤ n →
      wfMemberVal v = true → (∀ q ∈ m, q.1 ≠ k) →
      insertP m ((pathsVal v).map (fun e => ((k :: e.1 : List String), e.2))) =
        m ++ [(k, v)]) ∧
    (∀ (l m : List (String × JVal)), sizeOf l ≤ n →
      wfFields l = true → (∀ p ∈ l, ∀ q ∈ m, q.1 ≠ p.1) →
      insertP m (pathsFields l) = m ++ l) := by
  intro n
  induction n using Nat.strong_induction_on with
  | _ n ih =>
  constructor
  · intro v k m hs hwf hm
    cases v with
    | null => exact jsAssign_not_mem m k _ hm
    | str a => exact jsAssign_not_mem m k _ hm
    | num q => exact jsAssign_not_mem m k _ hm
    | arr xs => simp [wfMemberVal] at hwf
    | obj lv =>
      rw [wfMemberVal_obj] at hwf
      obtain ⟨hne, hwfl⟩ := hwf
      have hlt : sizeOf lv < n := by
        have h1 : sizeOf (JVal.obj lv) = 1 + sizeOf lv := by simp
        omega
      obtain ⟨hfne, hfirst, -, -⟩ :=
        (paths_facts (sizeOf lv)).2 lv le_rfl hwfl
      have hpne : ∀ e ∈ pathsFields lv, e.1 ≠ [] := by
        intro e he hc
        obtain ⟨k', p', hep, -⟩ := hfirst e he
        rw [hc] at hep
        exact List.noConfusion hep
      rcases hpf : pathsFields lv with - | ⟨e, es⟩
      · exact absurd hpf (hfne hne)
      · have hpv : pathsVal (JVal.obj lv) = e :: es := hpf
        rw [hpv]
        have hstep : insertP m (((e :: es).map
            (fun e => ((k :: e.1 : List String), e.2)))) =
            insertP (setPath m (k :: e.1) e.2)
              (es.map (fun e => ((k :: e.1 : List String), e.2))) := rfl
        rw [hstep, setPath_fresh m k e.1 e.2
          (hpne e (hpf ▸ List.mem_cons_self e es)) hm,
          insertP_under_key es m (setPath [] e.1 e.2) k
            (fun x hx => hpne x (hpf ▸ List.mem_cons_of_mem e hx)) hm]
        have hrest : insertP (setPath [] e.1 e.2) es =
            insertP [] (pathsFields lv) := by
          rw [hpf]; rfl
        rw [hrest, (ih (sizeOf lv) hlt).2 lv [] le_rfl hwfl
          (fun p hp q hq => absurd hq (List.not_mem_nil q))]
        rfl
  · intro l m hs hwf hdisj
    cases l with
    | nil => simp [insertP, pathsFields]
    | cons hd rest =>
      rcases hd with ⟨k, v⟩
      rw [wfFields_cons] at hwf
      obtain ⟨hk1, hk2, hk3, hv, hrest⟩ := hwf
      simp only [List.cons.sizeOf_spec, Prod.mk.sizeOf_spec] at hs
      have hv_lt : sizeOf v < n := by omega
      have hr_lt : sizeOf rest < n := by omega
      show insertP m ((pathsVal v).map
          (fun e => ((k :: e.1 : List String), e.2)) ++ pathsFields rest) = _
      rw [insertP_append, (ih (sizeOf v) hv_lt).1 v k m le_rfl hv
        (fun q hq => hdisj (k, v) (List.mem_cons_self _ _) q hq),
        (ih (sizeOf rest) hr_lt).2 rest (m ++ [(k, v)]) le_rfl hrest ?_]
      · simp
      · intro p hp q hq
        rcases List.mem_append.mp hq with hq1 | hq2
        · exact hdisj p (List.mem_cons_of_mem _ hp) q hq1
        · have hqv : q = (k, v) := by simpa using hq2
          rw [hqv]
          exact (hk3 p hp).symm

theorem insertEntries_map_encode :
    ∀ (entries : List (List String × JVal)) (m : List (String × JVal)),
    (∀ e ∈ entries, splitDots (dotJoinAll "" e.1) = e.1) →
    insertEntries m (entries.map (fun e => (dotJoinAll "" e.1, e.2))) =
      insertP m entries := by
  intro entries
  induction entries with
  | nil => intro m h; rfl
  | cons e es ih =>
    intro m h
    have hstep : insertEntries m ((e :: es).map
        (fun e => (dotJoinAll "" e.1, e.2))) =
        insertEntries (setPath m (splitDots (dotJoinAll "" e.1)) e.2)
          (es.map (fun e => (dotJoinAll "" e.1, e.2))) := rfl
    rw [hstep, h e (List.mem_cons_self e es),
      ih (setPath m e.1 e.2) (fun x hx => h x (List.mem_cons_of_mem e hx))]
    rfl

/-- C5 (amended): reconstructing a nested mapping from the dotted-path keys
of `flatten`'s output reproduces the original mapping exactly, for every
nested mapping (any depth) whose members contain no arrays, whose nested
objects are non-empty, and whose keys are non-empty, dot-free, and unique
within each object (`wfFields`); the counterexample shows the claim fails
without the extra conditions (an empty sub-object is erased). -/
theorem flatten_roundtrip (l : List (String × JVal))
    (h : wfFields l = true) : unflatten (flatten (.obj l)) = .obj l := by
  have hFF := (flatten_paths (sizeOf l)).2 l "" le_rfl h
  obtain ⟨-, hfirst, hsegs, hnd⟩ := (paths_facts (sizeOf l)).2 l le_rfl h
  have hdec : ∀ e ∈ pathsFields l, splitDots (dotJoinAll "" e.1) = e.1 := by
    intro e he
    obtain ⟨k, p, hep, -⟩ := hfirst e he
    have hsk := hsegs e he
    have hk : k ≠ "" ∧ '.' ∉ k.data :=
      hsk k (by rw [hep]; exact List.mem_cons_self k p)
    rw [hep]
    have hjoin : dotJoinAll "" (k :: p) = dotJoinAll k p := by
      rw [dotJoinAll_cons]
      have hj : dotJoin "" k = k := by rw [dotJoin, if_pos rfl]
      rw [hj]
    rw [hjoin, splitDots_dotJoinAll p k hk.1 hk.2
      (fun s hsm =>
        (hsk s (by rw [hep]; exact List.mem_cons_of_mem k hsm)).2)]
  have hkeys : (((pathsFields l).map
      (fun e => (dotJoinAll "" e.1, e.2))).map Prod.fst).Nodup := by
    rw [List.map_map]
    have h2 : (Prod.fst ∘ fun e : List String × JVal =>
        (dotJoinAll "" e.1, e.2)) =
        (fun p : List String => dotJoinAll "" p) ∘ Prod.fst := rfl
    rw [h2, ← List.map_map]
    refine List.Nodup.map_on ?_ hnd
    intro p hp q hq hpq
    obtain ⟨ep, hep, hep1⟩ := List.mem_map.mp hp
    obtain ⟨eq', heq, heq1⟩ := List.mem_map.mp hq
    have hd1 := hdec ep hep
    have hd2 := hdec eq' heq
    rw [hep1] at hd1
    rw [heq1] at hd2
    rw [← hd1, ← hd2, hpq]
  have h1 : flatten (.obj l) =
      .obj ((pathsFields l).map (fun e => (dotJoinAll "" e.1, e.2))) := by
    show JVal.obj (jsAssignMany [] (flattenFields l "")) = _
    rw [hFF, jsAssignMany_append_of_disjoint _ []
      (fun p hp q hq => absurd hq (List.not_mem_nil q)) hkeys]
    rfl
  rw [h1]
  show JVal.obj (insertEntries []
    ((pathsFields l).map (fun e => (dotJoinAll "" e.1, e.2)))) = _
  rw [insertEntries_map_encode (pathsFields l) [] hdec,
    (insertP_paths (sizeOf l)).2 l [] le_rfl h
      (fun p hp q hq => absurd hq (List.not_mem_nil q))]
  rfl

theorem flatten_roundtrip_witness :
    wfFields [("a", JVal.obj [("b", JVal.num 1), ("c", JVal.num 2)]),
      ("d", JVal.num 3)] = true ∧
    unflatten (flatten (.obj [("a", JVal.obj [("b", JVal.num 1),
      ("c", JVal.num 2)]), ("d", JVal.num 3)])) =
      .obj [("a", JVal.obj [("b", JVal.num 1), ("c", JVal.num 2)]),
        ("d", JVal.num 3)] :=
  ⟨rfl, flatten_roundtrip _ rfl⟩

/-- C5 counterexample: the input `{a: {}, b: 1}` has depth 2 and contains no
arrays, yet reconstructing from its flattened form gives `{b: 1}` — the
empty sub-object is erased, so the round-trip is not the identity on all
array-free nested mappings. -/
theorem flatten_roundtrip_fails_on_empty_subobject :
    noArraysFields [("a", JVal.obj []), ("b", JVal.num 1)] = true ∧
    unflatten (flatten (.obj [("a", JVal.obj []), ("b", JVal.num 1)])) =
      .obj [("b", JVal.num 1)] ∧
    JVal.obj [("b", JVal.num 1)] ≠
      .obj [("a", JVal.obj []), ("b", JVal.num 1)] := by
  refine ⟨rfl, rfl, ?_⟩
  simp

end PVB
